import Mathlib

/-!
Shallow embedding of the fpm-core record store (src/project.rs, src/db.rs,
src/utils.rs, src/module.rs) and proofs about its merge, search, load,
add/update and sibling-detection operations.

Conventions:
* `HashSet<String>` is embedded as `Finset String`; the element-wise insert
  loops of `merge` are embedded as finite-set unions.
* `BTreeMap<String, _>` is embedded as an association list with ordered
  insertion (`mapInsert`) and lookup (`mapGet`).
* The filesystem is embedded as the set of record files present on disk
  (`projectFiles`, `moduleFiles`); `fs::write` failures only go to stderr in
  the code, without aborting, so a write always succeeds in the embedding.
* Functions that can abort the process return `Except String _`; an `.error`
  result models the abort and carries no successor state, which is faithful
  because every abort in the code happens before the mutation it guards.
* The external YAML codec and the module content hasher are parameters
  (`decode`, `hashFn`) of the operations that use them.
-/

/-- Mirrors `SoftwareProject` from src/project.rs. -/
structure SoftwareProject where
  id : String
  vcs_url : String
  name : String
  description : Option String
  web_urls : Finset String
  vcs_urls : Finset String
  siblings : Option (Finset String)
  flatpak_app_manifests : Finset String
  flatpak_module_manifests : Finset String
  flatpak_sources_manifests : Finset String
  tags : Finset String
  build_systems : Finset String
  main_branch : Option String
  last_known_commit : Option String
  last_updated : Option String
  root_hashes : List String
deriving DecidableEq

/-- The `Default` derive of `SoftwareProject`. -/
def SoftwareProject.default : SoftwareProject :=
  { id := "", vcs_url := "", name := "", description := none, web_urls := ∅,
    vcs_urls := ∅, siblings := none, flatpak_app_manifests := ∅,
    flatpak_module_manifests := ∅, flatpak_sources_manifests := ∅, tags := ∅,
    build_systems := ∅, main_branch := none, last_known_commit := none,
    last_updated := none, root_hashes := [] }

/-- The `if let Some(v) = &other.f { self.f = Some(v.clone()) }` pattern used
by `merge` for its optional scalar fields. -/
def optOverwrite (self other : Option String) : Option String :=
  match other with
  | some v => some v
  | none => self

/-- The siblings rule of `merge`: adopted from `other` only when `self`
currently has none. -/
def siblingsMerge (self other : Option (Finset String)) : Option (Finset String) :=
  match other with
  | some _ => if self.isNone then other else self
  | none => self

/-- Mirrors `SoftwareProject::merge` (src/project.rs, lines 81-138).  The two
`panic!`-guards become `.error`; they fire before any field is written. -/
def SoftwareProject.merge (self other_project : SoftwareProject) :
    Except String SoftwareProject :=
  if self.id ≠ other_project.id then
    .error ("Cannot merge projects with different IDs! " ++ self.id ++ " != "
      ++ other_project.id)
  else if self.vcs_url ≠ other_project.vcs_url then
    .error ("Cannot merge projects with different VCS URLs! " ++ self.vcs_url
      ++ " != " ++ other_project.vcs_url)
  else .ok { self with
    web_urls := self.web_urls ∪ other_project.web_urls
    vcs_urls := self.vcs_urls ∪ other_project.vcs_urls
    build_systems := self.build_systems ∪ other_project.build_systems
    flatpak_app_manifests :=
      self.flatpak_app_manifests ∪ other_project.flatpak_app_manifests
    flatpak_module_manifests :=
      self.flatpak_module_manifests ∪ other_project.flatpak_module_manifests
    flatpak_sources_manifests :=
      self.flatpak_sources_manifests ∪ other_project.flatpak_sources_manifests
    tags := self.tags ∪ other_project.tags
    root_hashes := if self.root_hashes.length = 0
      then self.root_hashes ++ other_project.root_hashes
      else self.root_hashes
    siblings := siblingsMerge self.siblings other_project.siblings
    description := optOverwrite self.description other_project.description
    last_known_commit :=
      optOverwrite self.last_known_commit other_project.last_known_commit
    main_branch := optOverwrite self.main_branch other_project.main_branch
    last_updated := optOverwrite self.last_updated other_project.last_updated }

/-- Mirrors `SoftwareProject::get_root_signature` (src/project.rs, lines
157-163): separator-free left-to-right concatenation of `root_hashes`. -/
def SoftwareProject.get_root_signature (self : SoftwareProject) : String :=
  self.root_hashes.foldl (fun acc root_hash => acc ++ root_hash) ""

section MergeLemmas

theorem optOverwrite_self (a : Option String) : optOverwrite a a = a := by
  cases a <;> rfl

theorem siblingsMerge_self (a : Option (Finset String)) : siblingsMerge a a = a := by
  cases a <;> rfl

theorem rootHashes_self (l : List String) :
    (if l = [] then l ++ l else l) = l := by
  cases l <;> simp

end MergeLemmas

/-- C7: merging a project into itself is the identity. -/
theorem merge_self (p : SoftwareProject) : p.merge p = .ok p := by
  simp [SoftwareProject.merge, optOverwrite_self, siblingsMerge_self,
    rootHashes_self]

/-- C3: merging two projects with different ids fails with the
identity-mismatch error (the guard fires before any field is written, so in
this embedding no merged record exists at all). -/
theorem merge_id_guard (p q : SoftwareProject) (h : p.id ≠ q.id) :
    p.merge q = .error ("Cannot merge projects with different IDs! " ++ p.id
      ++ " != " ++ q.id) := by
  simp [SoftwareProject.merge, h]

theorem merge_id_guard_witness :
    ({ SoftwareProject.default with id := "a" } : SoftwareProject).merge
        { SoftwareProject.default with id := "b" }
      = .error ("Cannot merge projects with different IDs! " ++ "a" ++ " != "
        ++ "b") :=
  merge_id_guard { SoftwareProject.default with id := "a" }
    { SoftwareProject.default with id := "b" } (by decide)

/-- C5: under a successful merge, non-empty `root_hashes` are untouched and
empty `root_hashes` become a copy of the other project's list, order kept. -/
theorem merge_root_hashes (p q : SoftwareProject) (hid : p.id = q.id)
    (hvcs : p.vcs_url = q.vcs_url) :
    (∃ r, p.merge q = .ok r) ∧
    ∀ r, p.merge q = .ok r →
      (p.root_hashes ≠ [] → r.root_hashes = p.root_hashes) ∧
      (p.root_hashes = [] → r.root_hashes = q.root_hashes) := by
  constructor
  · simp [SoftwareProject.merge, hid, hvcs]
  · intro r hr
    simp [SoftwareProject.merge, hid, hvcs] at hr
    subst hr
    constructor <;> intro h <;> simp [h]

theorem merge_root_hashes_witness :
    (∃ r, ({ SoftwareProject.default with root_hashes := [] } :
          SoftwareProject).merge
        { SoftwareProject.default with root_hashes := ["h1", "h2"] } = .ok r) ∧
    ∀ r, ({ SoftwareProject.default with root_hashes := [] } :
          SoftwareProject).merge
        { SoftwareProject.default with root_hashes := ["h1", "h2"] } = .ok r →
      (([] : List String) ≠ [] → r.root_hashes = []) ∧
      (([] : List String) = [] → r.root_hashes = ["h1", "h2"]) :=
  merge_root_hashes { SoftwareProject.default with root_hashes := [] }
    { SoftwareProject.default with root_hashes := ["h1", "h2"] } rfl rfl

/-! ### The record store (src/db.rs) -/

/-- `BTreeMap` lookup over the association-list embedding. -/
def mapGet {α : Type} (k : String) : List (String × α) → Option α
  | [] => none
  | (k2, v) :: rest => if k = k2 then some v else mapGet k rest

/-- The lexicographic string order of the `BTreeMap` keys, stated on the
character lists so that the kernel can evaluate it. -/
def keyLt (a b : String) : Prop := a.toList < b.toList

instance : DecidableRel keyLt := fun a b =>
  inferInstanceAs (Decidable (a.toList < b.toList))

/-- `BTreeMap` insert over the association-list embedding: keys are kept in
ascending order and an existing binding for the key is replaced in place. -/
def mapInsert {α : Type} (k : String) (v : α) : List (String × α) → List (String × α)
  | [] => [(k, v)]
  | (k2, v2) :: rest =>
    if keyLt k k2 then (k, v) :: (k2, v2) :: rest
    else if k = k2 then (k, v) :: rest
    else (k2, v2) :: mapInsert k v rest

/-- The payload type `flatpak_rs::module::FlatpakModule` is external to this
repository; it is embedded as its opaque serialized content. -/
abbrev FlatpakModule := String

/-- Mirrors `SoftwareModule` from src/module.rs. -/
structure SoftwareModule where
  project_id : Option String
  flatpak_module : FlatpakModule
deriving DecidableEq

/-- The `Default` derive of `SoftwareModule`. -/
def SoftwareModule.default : SoftwareModule :=
  { project_id := none, flatpak_module := "" }

/-- Mirrors `Database` from src/db.rs (`indexed_projects: BTreeMap<String,
SoftwareProject>`, `modules: Vec<SoftwareModule>`). -/
structure Database where
  indexed_projects : List (String × SoftwareProject)
  modules : List SoftwareModule
deriving DecidableEq

/-- The in-memory `Database` together with the sets of record files present
on disk (`<root>/projects/<id>.yaml` and `<root>/modules/<hash>.yaml`). -/
structure DbState where
  db : Database
  projectFiles : Finset String
  moduleFiles : Finset String
deriving DecidableEq

/-- `str::starts_with` on character lists. -/
def charsLeadWith : List Char → List Char → Bool
  | _, [] => true
  | [], _ :: _ => false
  | c :: s, d :: t => c == d && charsLeadWith s t

/-- `str::contains` (literal, case-sensitive substring) on character lists. -/
def charsContainSub : List Char → List Char → Bool
  | [], t => charsLeadWith [] t
  | c :: s, t => charsLeadWith (c :: s) t || charsContainSub s t

/-- `str::contains` on strings. -/
def strContains (s term : String) : Bool := charsContainSub s.toList term.toList

/-- The loop body of `Database::search_projects` (src/db.rs, lines 369-380):
for each project of the index, in key order, the project is pushed once if
its `name` contains the term, and pushed (again) if its `vcs_url` contains
the term. -/
def search_projects_list (search_term : String) :
    List (String × SoftwareProject) → List SoftwareProject
  | [] => []
  | (_, project) :: rest =>
    ((if strContains project.name search_term then [project] else []) ++
      (if strContains project.vcs_url search_term then [project] else [])) ++
      search_projects_list search_term rest

/-- Mirrors `Database::search_projects`. -/
def Database.search_projects (self : Database) (search_term : String) :
    List SoftwareProject :=
  search_projects_list search_term self.indexed_projects

/-- Mirrors `Database::get_project` (the returned record is a clone). -/
def Database.get_project (self : Database) (project_id : String) :
    Option SoftwareProject :=
  mapGet project_id self.indexed_projects

/-- Mirrors `Database::update_project` (src/db.rs, lines 318-343).  The three
guards and a failing merge abort (`.error`) before anything is persisted; on
success the merged record replaces the indexed one and the (existing) file is
overwritten, so `projectFiles` is unchanged. -/
def DbState.update_project (s : DbState) (project : SoftwareProject) :
    Except String DbState :=
  if project.id.length = 0 then
    .error "Trying to update a project to the db without an id!"
  else match mapGet project.id s.db.indexed_projects with
    | none => .error ("called `Option::unwrap()` on a `None` value: project "
        ++ project.id ++ " is not in the index")
    | some existing =>
      if project.id ∉ s.projectFiles then
        .error ("Project " ++ project.id ++ " does not exist")
      else match existing.merge project with
        | .error e => .error e
        | .ok merged =>
          .ok { s with db := { s.db with
            indexed_projects := mapInsert project.id merged s.db.indexed_projects } }

/-- Mirrors `Database::add_project` (src/db.rs, lines 345-367): an existing
file for the id degrades the call to `update_project`; otherwise the record
is written to a new file and inserted into the index, replacing any
in-memory entry under that id without a merge. -/
def DbState.add_project (s : DbState) (project : SoftwareProject) :
    Except String DbState :=
  if project.id.length = 0 then
    .error "Trying to add a project to the db without an id!"
  else if project.id ∈ s.projectFiles then
    s.update_project project
  else
    .ok { s with
      db := { s.db with
        indexed_projects := mapInsert project.id project s.db.indexed_projects }
      projectFiles := insert project.id s.projectFiles }

/-- Mirrors `Database::add_module` (src/db.rs, lines 288-316), with the
external content hasher `get_module_hash` passed as `hashFn`: when a file
already exists at the fingerprint-derived path the call is a no-op;
otherwise the module is written there and appended to the in-memory list. -/
def DbState.add_module (s : DbState) (hashFn : FlatpakModule → String)
    (new_module : FlatpakModule) : DbState :=
  let module_hash := hashFn new_module
  let new_software_module :=
    { SoftwareModule.default with flatpak_module := new_module }
  if module_hash ∈ s.moduleFiles then s
  else { s with
    db := { s.db with modules := s.db.modules ++ [new_software_module] }
    moduleFiles := insert module_hash s.moduleFiles }

/-! ### Loading (src/db.rs, `get_all_projects` / `get_all_modules`) -/

/-- One candidate file yielded by the path enumerator: its path, whether it
is a regular file, and its textual content (`none` when reading fails). -/
structure DbFile where
  path : String
  is_file : Bool
  content : Option String

/-- `str::ends_with`, on reversed character lists so that the kernel can
evaluate it. -/
def strEndsWith (s sfx : String) : Bool :=
  charsLeadWith s.toList.reverse sfx.toList.reverse

/-- The shared extension filter of both loaders. -/
def isYamlPath (p : String) : Bool := strEndsWith p "yml" || strEndsWith p "yaml"

/-- Mirrors `Database::get_all_projects` (src/db.rs, lines 197-229), with the
external YAML codec passed as `decode`.  A read or decode failure of any
project file aborts loading (`.error`). -/
def get_all_projects (decode : String → Option SoftwareProject) :
    List DbFile → Except String (List SoftwareProject)
  | [] => .ok []
  | f :: rest =>
    if !f.is_file then get_all_projects decode rest
    else if !isYamlPath f.path then get_all_projects decode rest
    else match f.content with
      | none => .error ("Could not read project file " ++ f.path ++ ".")
      | some content =>
        match decode content with
        | none => .error ("Could not parse project file at " ++ f.path ++ ".")
        | some project =>
          (get_all_projects decode rest).map (fun projects => project :: projects)

/-- Mirrors `Database::get_all_modules` (src/db.rs, lines 231-269).  A read
or decode failure of a module file is logged and skipped. -/
def get_all_modules (decode : String → Option SoftwareModule) :
    List DbFile → List SoftwareModule
  | [] => []
  | f :: rest =>
    if !f.is_file then get_all_modules decode rest
    else if !isYamlPath f.path then get_all_modules decode rest
    else match f.content with
      | none => get_all_modules decode rest
      | some content =>
        match decode content with
        | none => get_all_modules decode rest
        | some m => m :: get_all_modules decode rest

/-! ### Sibling detection (src/db.rs, `detect_siblings`) -/

/-- The first loop of `Database::detect_siblings` (src/db.rs, lines 396-412):
group the ids of the projects with a non-empty root signature by signature,
into a `BTreeMap<String, HashSet<String>>`. -/
def buildGroups : List (String × SoftwareProject) → List (String × Finset String) →
    List (String × Finset String)
  | [], acc => acc
  | (project_id, project) :: rest, acc =>
    let root_signature := project.get_root_signature
    if root_signature.length = 0 then buildGroups rest acc
    else match mapGet root_signature acc with
      | some siblings =>
        buildGroups rest (mapInsert root_signature (insert project_id siblings) acc)
      | none =>
        buildGroups rest (mapInsert root_signature ({project_id} : Finset String) acc)

/-- The body of the inner write loop of `detect_siblings`: clone the stored
record, set its `siblings` to the whole group, and push it through
`update_project`. -/
def processSibling (s : DbState) (siblings : Finset String) (sibling : String) :
    Except String DbState :=
  match s.db.get_project sibling with
  | none => .error ("called `Option::unwrap()` on a `None` value: project "
      ++ sibling ++ " is not in the index")
  | some project => s.update_project { project with siblings := some siblings }

/-- The reflexive closure of `keyLt`, used as the sorting relation when
enumerating a `HashSet<String>`. -/
def keyLe (a b : String) : Prop := ¬ keyLt b a

instance : DecidableRel keyLe := fun a b =>
  inferInstanceAs (Decidable ¬ (b.toList < a.toList))

theorem string_toList_injective {a b : String} (h : a.toList = b.toList) :
    a = b := by
  cases a
  cases b
  simp only [String.toList] at h
  subst h
  rfl

instance : IsTotal String keyLe :=
  ⟨fun a b => by
    by_cases h : keyLt b a
    · exact Or.inr fun h2 => lt_asymm h h2
    · exact Or.inl h⟩

instance : IsTrans String keyLe :=
  ⟨fun a b c h1 h2 => by
    simp only [keyLe, keyLt, not_lt] at h1 h2 ⊢
    exact le_trans h1 h2⟩

instance : IsAntisymm String keyLe :=
  ⟨fun a b h1 h2 => by
    simp only [keyLe, keyLt, not_lt] at h1 h2
    exact string_toList_injective (le_antisymm h1 h2)⟩

/-- Enumerate the elements of a `HashSet<String>` embedded as a `Finset`.
`HashSet` iteration order is unspecified in the source; the embedding picks
the ascending order (by insertion sort, so that the kernel can evaluate it),
and the proofs show the pass result is the same for every order because each
member is written at most once per pass. -/
def hashSetElems (s : Finset String) : List String :=
  Quotient.lift (List.insertionSort keyLe)
    (fun l1 l2 h =>
      List.eq_of_perm_of_sorted
        (((List.perm_insertionSort _ l1).trans h).trans
          (List.perm_insertionSort _ l2).symm)
        (List.sorted_insertionSort _ l1) (List.sorted_insertionSort _ l2))
    s.val

theorem mem_hashSetElems (s : Finset String) (a : String) :
    a ∈ hashSetElems s ↔ a ∈ s := by
  rcases s with ⟨m, hm⟩
  induction m using Quotient.inductionOn with
  | h l =>
    show a ∈ List.insertionSort keyLe l ↔ _
    rw [(List.perm_insertionSort keyLe l).mem_iff]
    rfl

/-- The inner write loop of `detect_siblings` over one group. -/
def processGroup (s : DbState) (siblings : Finset String) : Except String DbState :=
  (hashSetElems siblings).foldlM
    (fun s2 sibling => processSibling s2 siblings sibling) s

/-- Mirrors `Database::detect_siblings` (src/db.rs, lines 393-425). -/
def DbState.detect_siblings (s : DbState) : Except String DbState :=
  let groups := buildGroups s.db.indexed_projects []
  groups.foldlM (fun s2 entry =>
    if entry.2.card ≤ 1 then .ok s2 else processGroup s2 entry.2) s

/-! ### Association-list map lemmas -/

theorem mapGet_mapInsert_self {α : Type} (k : String) (v : α)
    (m : List (String × α)) : mapGet k (mapInsert k v m) = some v := by
  induction m with
  | nil => simp [mapInsert, mapGet]
  | cons kv rest ih =>
    obtain ⟨k2, v2⟩ := kv
    by_cases h1 : keyLt k k2
    · simp [mapInsert, h1, mapGet]
    · by_cases h2 : k = k2
      · subst h2
        simp [mapInsert, h1, mapGet]
      · simp [mapInsert, h1, h2, mapGet, ih]

theorem mapGet_mapInsert_ne {α : Type} (k j : String) (v : α)
    (m : List (String × α)) (h : j ≠ k) :
    mapGet j (mapInsert k v m) = mapGet j m := by
  induction m with
  | nil => simp [mapInsert, mapGet, h]
  | cons kv rest ih =>
    obtain ⟨k2, v2⟩ := kv
    by_cases h1 : keyLt k k2
    · simp [mapInsert, h1, mapGet, h]
    · by_cases h2 : k = k2
      · subst h2
        simp [mapInsert, h1, mapGet, h]
      · simp only [mapInsert, if_neg h1, if_neg h2, mapGet]
        by_cases h3 : j = k2
        · simp [h3]
        · simp [h3, ih]

theorem mapGet_mem {α : Type} {k : String} {v : α} {m : List (String × α)}
    (h : mapGet k m = some v) : (k, v) ∈ m := by
  induction m with
  | nil => simp [mapGet] at h
  | cons kv rest ih =>
    obtain ⟨k2, v2⟩ := kv
    by_cases h2 : k = k2
    · subst h2
      simp [mapGet] at h
      subst h
      exact List.mem_cons_self _ _
    · simp only [mapGet, if_neg h2] at h
      exact List.mem_cons_of_mem _ (ih h)

theorem mem_mapGet {α : Type} {k : String} {v : α} {m : List (String × α)}
    (hd : m.Pairwise fun a b => a.1 ≠ b.1) (h : (k, v) ∈ m) :
    mapGet k m = some v := by
  induction m with
  | nil => cases h
  | cons kv rest ih =>
    obtain ⟨k2, v2⟩ := kv
    rw [List.pairwise_cons] at hd
    rcases List.mem_cons.mp h with heq | hmem
    · cases heq
      simp [mapGet]
    · have hne : k ≠ k2 := by
        intro e
        exact (hd.1 (k, v) hmem) (by simpa using e.symm)
      simp only [mapGet, if_neg hne]
      exact ih hd.2 hmem

theorem mem_mapInsert {α : Type} {e : String × α} {k : String} {v : α}
    {m : List (String × α)} (h : e ∈ mapInsert k v m) : e = (k, v) ∨ e ∈ m := by
  induction m with
  | nil => simpa [mapInsert] using h
  | cons kv rest ih =>
    obtain ⟨k2, v2⟩ := kv
    by_cases h1 : keyLt k k2
    · simp only [mapInsert, if_pos h1] at h
      rcases List.mem_cons.mp h with heq | hmem
      · exact Or.inl heq
      · exact Or.inr hmem
    · by_cases h2 : k = k2
      · simp only [mapInsert, if_neg h1, if_pos h2] at h
        rcases List.mem_cons.mp h with heq | hmem
        · exact Or.inl heq
        · exact Or.inr (List.mem_cons_of_mem _ hmem)
      · simp only [mapInsert, if_neg h1, if_neg h2] at h
        rcases List.mem_cons.mp h with heq | hmem
        · exact Or.inr (heq ▸ List.mem_cons_self _ _)
        · rcases ih hmem with heq | hmem2
          · exact Or.inl heq
          · exact Or.inr (List.mem_cons_of_mem _ hmem2)

theorem keyLt_of_not_of_ne {a b : String} (h1 : ¬ keyLt a b) (h2 : a ≠ b) :
    keyLt b a := by
  rcases lt_trichotomy a.toList b.toList with h | h | h
  · exact absurd h h1
  · exact absurd (string_toList_injective h) h2
  · exact h

/-- The `BTreeMap` key invariant: strictly ascending keys. -/
def mapSorted {α : Type} (m : List (String × α)) : Prop :=
  m.Pairwise fun a b => keyLt a.1 b.1

theorem mapSorted_mapInsert {α : Type} (k : String) (v : α)
    {m : List (String × α)} (hs : mapSorted m) : mapSorted (mapInsert k v m) := by
  induction m with
  | nil => simp [mapInsert, mapSorted]
  | cons kv rest ih =>
    obtain ⟨k2, v2⟩ := kv
    rw [mapSorted, List.pairwise_cons] at hs
    by_cases h1 : keyLt k k2
    · rw [mapSorted]
      simp only [mapInsert, if_pos h1]
      rw [List.pairwise_cons]
      refine ⟨?_, List.pairwise_cons.mpr hs⟩
      rintro e he
      rcases List.mem_cons.mp he with rfl | hmem
      · exact h1
      · exact lt_trans h1 (hs.1 e hmem)
    · by_cases h2 : k = k2
      · subst h2
        rw [mapSorted]
        simp only [mapInsert, if_neg h1, if_pos rfl]
        exact List.pairwise_cons.mpr ⟨hs.1, hs.2⟩
      · have hk2 : keyLt k2 k := keyLt_of_not_of_ne h1 h2
        rw [mapSorted]
        simp only [mapInsert, if_neg h1, if_neg h2]
        rw [List.pairwise_cons]
        refine ⟨?_, ih hs.2⟩
        intro e he
        rcases mem_mapInsert he with rfl | hmem
        · exact hk2
        · exact hs.1 e hmem

theorem mapSorted_distinct {α : Type} {m : List (String × α)}
    (hs : mapSorted m) : m.Pairwise fun a b => a.1 ≠ b.1 :=
  hs.imp fun h => fun he => absurd (he ▸ h) (lt_irrefl _)

/-! ### Search (claim C2) -/

theorem search_projects_list_count (term : String)
    (l : List (String × SoftwareProject)) (p : SoftwareProject) :
    (search_projects_list term l).count p =
      (l.countP fun kp => kp.2 == p) *
        ((if strContains p.name term then 1 else 0) +
         (if strContains p.vcs_url term then 1 else 0)) := by
  induction l with
  | nil => simp [search_projects_list]
  | cons kv rest ih =>
    obtain ⟨k0, q⟩ := kv
    simp only [search_projects_list, List.append_assoc, List.count_append, ih,
      List.countP_cons]
    by_cases hq : q = p
    · subst hq
      cases hA : strContains q.name term <;> cases hB : strContains q.vcs_url term <;>
        simp [hA, hB, List.count_cons] <;> omega
    · have hqb : (q == p) = false := beq_false_of_ne hq
      cases hA : strContains q.name term <;> cases hB : strContains q.vcs_url term <;>
        simp [hA, hB, hqb, List.count_cons, hq]

/-- C2 (amended): a record is returned by `search_projects` exactly when it is
an indexed value whose `name` or whose main `vcs_url` contains the term; it
occurs once per matching criterion (so twice when both match), counted per
index entry holding it.  The `vcs_urls` set is not consulted. -/
theorem search_projects_found (db : Database) (term : String) (p : SoftwareProject) :
    (p ∈ db.search_projects term ↔
      (∃ kp ∈ db.indexed_projects, kp.2 = p) ∧
      (strContains p.name term = true ∨ strContains p.vcs_url term = true)) ∧
    (db.search_projects term).count p =
      (db.indexed_projects.countP fun kp => kp.2 == p) *
        ((if strContains p.name term then 1 else 0) +
         (if strContains p.vcs_url term then 1 else 0)) := by
  have hc := search_projects_list_count term db.indexed_projects p
  refine ⟨?_, hc⟩
  have hmem : p ∈ db.search_projects term ↔
      (db.search_projects term).count p ≠ 0 := by
    rw [Ne, List.count_eq_zero, not_not]
  have hc2 : (db.search_projects term).count p =
      (db.indexed_projects.countP fun kp => kp.2 == p) *
        ((if strContains p.name term then 1 else 0) +
         (if strContains p.vcs_url term then 1 else 0)) := hc
  rw [hmem, hc2, Nat.mul_ne_zero_iff]
  apply and_congr
  · rw [Ne, List.countP_eq_zero]
    push_neg
    simp
  · cases hA : strContains p.name term <;> cases hB : strContains p.vcs_url term <;>
      simp [hA, hB]

/-- A record matching by both `name` and `vcs_url`, with a third term found
only in its `vcs_urls` set. -/
def searchCexProject : SoftwareProject :=
  { SoftwareProject.default with
    id := "p1", name := "foo", vcs_url := "foo", vcs_urls := {"bar"} }

def searchCexDb : Database :=
  { indexed_projects := [("p1", searchCexProject)], modules := [] }

/-- C2 counterexample: the project matching on both name and main VCS URL is
returned twice, not once, and a term occurring only in the `vcs_urls` set
yields no result at all. -/
theorem search_projects_counterexample :
    searchCexDb.search_projects "foo" = [searchCexProject, searchCexProject] ∧
    searchCexDb.search_projects "bar" = [] ∧
    "bar" ∈ searchCexProject.vcs_urls ∧
    strContains "bar" "bar" = true := by
  refine ⟨by decide, by decide, by decide, by decide⟩

theorem search_projects_found_witness :
    (searchCexProject ∈ searchCexDb.search_projects "foo" ↔
      (∃ kp ∈ searchCexDb.indexed_projects, kp.2 = searchCexProject) ∧
      (strContains searchCexProject.name "foo" = true ∨
        strContains searchCexProject.vcs_url "foo" = true)) ∧
    (searchCexDb.search_projects "foo").count searchCexProject =
      (searchCexDb.indexed_projects.countP fun kp => kp.2 == searchCexProject) *
        ((if strContains searchCexProject.name "foo" then 1 else 0) +
         (if strContains searchCexProject.vcs_url "foo" then 1 else 0)) :=
  search_projects_found searchCexDb "foo" searchCexProject

/-! ### Content-addressed modules (claim C6) -/

/-- C6: adding the same module twice is idempotent: the first call stores one
file and appends one in-memory entry; the second call finds the file at the
fingerprint-derived path, writes nothing, and leaves the state unchanged. -/
theorem add_module_content_addressed (s : DbState)
    (hashFn : FlatpakModule → String) (m : FlatpakModule)
    (hnew : hashFn m ∉ s.moduleFiles) :
    (s.add_module hashFn m).add_module hashFn m = s.add_module hashFn m ∧
    (s.add_module hashFn m).moduleFiles = insert (hashFn m) s.moduleFiles ∧
    (s.add_module hashFn m).db.modules =
      s.db.modules ++ [{ SoftwareModule.default with flatpak_module := m }] ∧
    (s.add_module hashFn m).db.indexed_projects = s.db.indexed_projects := by
  refine ⟨?_, ?_, ?_, ?_⟩ <;> simp [DbState.add_module, hnew]

theorem add_module_content_addressed_witness :
    ((⟨⟨[], []⟩, ∅, ∅⟩ : DbState).add_module id "mod1").add_module id "mod1"
        = (⟨⟨[], []⟩, ∅, ∅⟩ : DbState).add_module id "mod1" ∧
    ((⟨⟨[], []⟩, ∅, ∅⟩ : DbState).add_module id "mod1").moduleFiles
        = insert (id "mod1") (∅ : Finset String) ∧
    ((⟨⟨[], []⟩, ∅, ∅⟩ : DbState).add_module id "mod1").db.modules
        = [] ++ [{ SoftwareModule.default with flatpak_module := "mod1" }] ∧
    ((⟨⟨[], []⟩, ∅, ∅⟩ : DbState).add_module id "mod1").db.indexed_projects
        = [] :=
  add_module_content_addressed ⟨⟨[], []⟩, ∅, ∅⟩ id "mod1" (by decide)

/-! ### add_project (claim C10) -/

/-- C10 (amended): for a project with a non-empty id whose file is absent on
disk, `add_project` writes the file and inserts the record into the index,
wholesale replacing any in-memory entry under that id without a merge. -/
theorem add_project_no_file (s : DbState) (p : SoftwareProject)
    (hid : p.id.length ≠ 0) (hfile : p.id ∉ s.projectFiles) :
    s.add_project p = .ok { s with
      db := { s.db with
        indexed_projects := mapInsert p.id p s.db.indexed_projects }
      projectFiles := insert p.id s.projectFiles } ∧
    mapGet p.id (mapInsert p.id p s.db.indexed_projects) = some p := by
  refine ⟨by simp [DbState.add_project, hid, hfile], mapGet_mapInsert_self _ _ _⟩

/-- C10 counterexample: for the empty-id project the file is absent, yet
`add_project` aborts on the empty-id guard instead of writing and
inserting. -/
theorem add_project_empty_id_counterexample :
    (⟨⟨[], []⟩, ∅, ∅⟩ : DbState).add_project SoftwareProject.default
        = .error "Trying to add a project to the db without an id!" ∧
    SoftwareProject.default.id ∉ (∅ : Finset String) := by
  exact ⟨rfl, by decide⟩

def addCexOld : SoftwareProject :=
  { SoftwareProject.default with id := "p2", name := "old" }

def addCexNew : SoftwareProject :=
  { SoftwareProject.default with id := "p2", name := "new", tags := {"t"} }

def addCexState : DbState :=
  { db := { indexed_projects := [("p2", addCexOld)], modules := [] },
    projectFiles := ∅, moduleFiles := ∅ }

theorem add_project_no_file_witness :
    addCexState.add_project addCexNew = .ok { addCexState with
      db := { addCexState.db with
        indexed_projects :=
          mapInsert addCexNew.id addCexNew addCexState.db.indexed_projects }
      projectFiles := insert addCexNew.id addCexState.projectFiles } ∧
    mapGet addCexNew.id
        (mapInsert addCexNew.id addCexNew addCexState.db.indexed_projects)
      = some addCexNew :=
  add_project_no_file addCexState addCexNew (by decide) (by decide)

/-! ### VCS identity guard (claim C8) -/

/-- C8: with equal ids but different main VCS URLs, `merge` fails on the VCS
identity guard before writing any field, and `update_project` on a store
whose indexed record disagrees with the incoming record's `vcs_url` aborts
without persisting anything (every abort path yields `.error`, which carries
no successor state). -/
theorem merge_vcs_guard (p q : SoftwareProject) (hid : p.id = q.id)
    (hvcs : p.vcs_url ≠ q.vcs_url) :
    p.merge q = .error ("Cannot merge projects with different VCS URLs! "
      ++ p.vcs_url ++ " != " ++ q.vcs_url) ∧
    ∀ s : DbState, mapGet q.id s.db.indexed_projects = some p →
      ∃ msg, s.update_project q = .error msg := by
  have hm : p.merge q = .error ("Cannot merge projects with different VCS URLs! "
      ++ p.vcs_url ++ " != " ++ q.vcs_url) := by
    simp [SoftwareProject.merge, hid, hvcs]
  refine ⟨hm, ?_⟩
  intro s hs
  by_cases h0 : q.id.length = 0
  · exact ⟨"Trying to update a project to the db without an id!",
      by simp [DbState.update_project, h0]⟩
  · by_cases hf : q.id ∈ s.projectFiles
    · exact ⟨"Cannot merge projects with different VCS URLs! " ++ p.vcs_url
          ++ " != " ++ q.vcs_url,
        by simp [DbState.update_project, h0, hs, hf, hm]⟩
    · exact ⟨"Project " ++ q.id ++ " does not exist",
        by simp [DbState.update_project, h0, hs, hf]⟩

def vcsCexStored : SoftwareProject :=
  { SoftwareProject.default with id := "p3", vcs_url := "u1" }

def vcsCexIncoming : SoftwareProject :=
  { SoftwareProject.default with id := "p3", vcs_url := "u2" }

theorem merge_vcs_guard_witness :
    vcsCexStored.merge vcsCexIncoming
        = .error ("Cannot merge projects with different VCS URLs! "
          ++ vcsCexStored.vcs_url ++ " != " ++ vcsCexIncoming.vcs_url) ∧
    ∀ s : DbState, mapGet vcsCexIncoming.id s.db.indexed_projects = some vcsCexStored →
      ∃ msg, s.update_project vcsCexIncoming = .error msg :=
  merge_vcs_guard vcsCexStored vcsCexIncoming (by decide) (by decide)

/-! ### Loading failure asymmetry (claim C4) -/

theorem get_all_projects_error (decP : String → Option SoftwareProject)
    (l1 l2 : List DbFile) (f : DbFile)
    (hfile : f.is_file = true) (hyaml : isYamlPath f.path = true)
    (hfail : f.content = none ∨ ∃ c, f.content = some c ∧ decP c = none) :
    ∃ msg, get_all_projects decP (l1 ++ f :: l2) = .error msg := by
  induction l1 with
  | nil =>
    rcases hfail with h | ⟨c, hc, hd⟩
    · exact ⟨"Could not read project file " ++ f.path ++ ".",
        by simp [get_all_projects, hfile, hyaml, h]⟩
    · exact ⟨"Could not parse project file at " ++ f.path ++ ".",
        by simp [get_all_projects, hfile, hyaml, hc, hd]⟩
  | cons g gs ih =>
    obtain ⟨msg, hmsg⟩ := ih
    simp only [List.cons_append, get_all_projects]
    cases hgf : g.is_file
    · exact ⟨msg, by simp [hgf, hmsg]⟩
    · cases hgy : isYamlPath g.path
      · exact ⟨msg, by simp [hgf, hgy, hmsg]⟩
      · cases hgc : g.content with
        | none => exact ⟨"Could not read project file " ++ g.path ++ ".",
            by simp [hgf, hgy, hgc]⟩
        | some c =>
          cases hgd : decP c with
          | none => exact ⟨"Could not parse project file at " ++ g.path ++ ".",
              by simp [hgf, hgy, hgc, hgd]⟩
          | some proj =>
            refine ⟨msg, ?_⟩
            simp only [hgf, hgy, hgc, hgd, Bool.not_true, Bool.false_eq_true,
              if_false, List.append_eq, hmsg]
            rfl

theorem get_all_modules_skip (decM : String → Option SoftwareModule)
    (l1 l2 : List DbFile) (f : DbFile)
    (hfile : f.is_file = true) (hyaml : isYamlPath f.path = true)
    (hfail : f.content = none ∨ ∃ c, f.content = some c ∧ decM c = none) :
    get_all_modules decM (l1 ++ f :: l2) = get_all_modules decM (l1 ++ l2) := by
  induction l1 with
  | nil =>
    rcases hfail with h | ⟨c, hc, hd⟩
    · simp [get_all_modules, hfile, hyaml, h]
    · simp [get_all_modules, hfile, hyaml, hc, hd]
  | cons g gs ih =>
    simp only [List.cons_append, get_all_modules, List.append_eq, ih]

/-- C4: over every on-disk state, a module file that fails to read or to
decode is skipped and loading continues with the remaining modules, while a
project file that fails to read or to decode aborts initialization. -/
theorem load_failure_asymmetry (decP : String → Option SoftwareProject)
    (decM : String → Option SoftwareModule) (l1 l2 : List DbFile) (f : DbFile)
    (hfile : f.is_file = true) (hyaml : isYamlPath f.path = true)
    (hfailP : f.content = none ∨ ∃ c, f.content = some c ∧ decP c = none)
    (hfailM : f.content = none ∨ ∃ c, f.content = some c ∧ decM c = none) :
    (∃ msg, get_all_projects decP (l1 ++ f :: l2) = .error msg) ∧
    get_all_modules decM (l1 ++ f :: l2) = get_all_modules decM (l1 ++ l2) :=
  ⟨get_all_projects_error decP l1 l2 f hfile hyaml hfailP,
   get_all_modules_skip decM l1 l2 f hfile hyaml hfailM⟩

def loadCexBadFile : DbFile :=
  { path := "bad.yaml", is_file := true, content := some "bad" }

def loadCexGoodFile : DbFile :=
  { path := "good.yaml", is_file := true, content := some "good" }

/-- A decoder that accepts exactly the content "good". -/
def loadCexDecM (c : String) : Option SoftwareModule :=
  if c = "good" then some SoftwareModule.default else none

theorem load_failure_asymmetry_witness :
    (∃ msg, get_all_projects (fun _ => none) ([] ++ loadCexBadFile :: [loadCexGoodFile])
        = .error msg) ∧
    get_all_modules loadCexDecM ([] ++ loadCexBadFile :: [loadCexGoodFile])
      = get_all_modules loadCexDecM ([] ++ [loadCexGoodFile]) :=
  load_failure_asymmetry (fun _ => none) loadCexDecM [] [loadCexGoodFile]
    loadCexBadFile (by decide) (by decide)
    (Or.inr ⟨"bad", rfl, rfl⟩) (Or.inr ⟨"bad", rfl, by decide⟩)

/-! ### Sibling detection: grouping phase (claims C1, C9) -/

/-- The ids of the projects of `m` whose root signature is `sig`. -/
def groupOf (m : List (String × SoftwareProject)) (sig : String) : Finset String :=
  ((m.filter fun kp => kp.2.get_root_signature == sig).map Prod.fst).toFinset

theorem groupOf_cons (k : String) (p : SoftwareProject)
    (rest : List (String × SoftwareProject)) (sig : String) :
    groupOf ((k, p) :: rest) sig =
      if p.get_root_signature = sig then insert k (groupOf rest sig)
      else groupOf rest sig := by
  by_cases h : p.get_root_signature = sig
  · simp [groupOf, h, List.filter_cons]
  · simp [groupOf, h, List.filter_cons]

theorem mem_groupOf {m : List (String × SoftwareProject)} {sig k : String}
    (hd : m.Pairwise fun a b => a.1 ≠ b.1) :
    k ∈ groupOf m sig ↔
      ∃ p, mapGet k m = some p ∧ p.get_root_signature = sig := by
  induction m with
  | nil => simp [groupOf, mapGet]
  | cons kv rest ih =>
    obtain ⟨k2, p2⟩ := kv
    rw [List.pairwise_cons] at hd
    rw [groupOf_cons]
    by_cases hsig : p2.get_root_signature = sig
    · rw [if_pos hsig]
      by_cases hk : k = k2
      · subst hk
        simp [mapGet, hsig]
      · rw [Finset.mem_insert]
        simp only [mapGet, if_neg hk]
        constructor
        · rintro (h | h)
          · exact absurd h hk
          · exact (ih hd.2).mp h
        · intro h
          exact Or.inr ((ih hd.2).mpr h)
    · rw [if_neg hsig]
      by_cases hk : k = k2
      · subst hk
        rw [ih hd.2]
        constructor
        · rintro ⟨p, hp, hps⟩
          exact absurd rfl (hd.1 (k, p) (mapGet_mem hp))
        · rintro ⟨p, hp, hps⟩
          simp only [mapGet, if_pos rfl] at hp
          cases hp
          exact absurd hps hsig
      · simp only [mapGet, if_neg hk]
        exact ih hd.2

theorem buildGroups_get (l : List (String × SoftwareProject)) :
    ∀ (acc : List (String × Finset String)) (sig : String), sig.length ≠ 0 →
    mapGet sig (buildGroups l acc) =
      match mapGet sig acc with
      | some s0 => some (s0 ∪ groupOf l sig)
      | none => if groupOf l sig = ∅ then none else some (groupOf l sig) := by
  induction l with
  | nil =>
    intro acc sig hsig
    cases h : mapGet sig acc <;> simp [buildGroups, groupOf, h]
  | cons kv rest ih =>
    intro acc sig hsig
    obtain ⟨k, p⟩ := kv
    rw [groupOf_cons]
    simp only [buildGroups]
    by_cases hrs : p.get_root_signature.length = 0
    · have hne : p.get_root_signature ≠ sig := fun e => hsig (e ▸ hrs)
      rw [if_pos hrs, if_neg hne]
      exact ih acc sig hsig
    · rw [if_neg hrs]
      cases hacc : mapGet p.get_root_signature acc with
      | some sibs =>
        by_cases hseq : sig = p.get_root_signature
        · subst hseq
          rw [ih _ _ hsig, mapGet_mapInsert_self, if_pos rfl, hacc]
          simp only
          congr 1
          rw [Finset.insert_union, Finset.union_insert]
        · have hA : p.get_root_signature ≠ sig := fun e => hseq e.symm
          rw [if_neg hA, ih _ _ hsig, mapGet_mapInsert_ne _ _ _ _ hseq]
      | none =>
        by_cases hseq : sig = p.get_root_signature
        · subst hseq
          rw [ih _ _ hsig, mapGet_mapInsert_self, if_pos rfl, hacc]
          simp only
          rw [if_neg (by simp : ¬ insert k (groupOf rest p.get_root_signature) = ∅),
            Finset.insert_eq]
        · have hA : p.get_root_signature ≠ sig := fun e => hseq e.symm
          rw [if_neg hA, ih _ _ hsig, mapGet_mapInsert_ne _ _ _ _ hseq]

theorem buildGroups_sorted (l : List (String × SoftwareProject)) :
    ∀ acc, mapSorted acc → mapSorted (buildGroups l acc) := by
  induction l with
  | nil => intro acc h; exact h
  | cons kv rest ih =>
    intro acc h
    obtain ⟨k, p⟩ := kv
    simp only [buildGroups]
    by_cases hrs : p.get_root_signature.length = 0
    · rw [if_pos hrs]; exact ih acc h
    · rw [if_neg hrs]
      cases hacc : mapGet p.get_root_signature acc
      · exact ih _ (mapSorted_mapInsert _ _ h)
      · exact ih _ (mapSorted_mapInsert _ _ h)

theorem buildGroups_keys (l : List (String × SoftwareProject)) :
    ∀ acc, (∀ e ∈ acc, e.1.length ≠ 0) →
      ∀ e ∈ buildGroups l acc, e.1.length ≠ 0 := by
  induction l with
  | nil => intro acc h; exact h
  | cons kv rest ih =>
    intro acc h
    obtain ⟨k, p⟩ := kv
    simp only [buildGroups]
    by_cases hrs : p.get_root_signature.length = 0
    · rw [if_pos hrs]; exact ih acc h
    · rw [if_neg hrs]
      have hins : ∀ S, ∀ e ∈ mapInsert p.get_root_signature S acc, e.1.length ≠ 0 := by
        intro S e he
        rcases mem_mapInsert he with rfl | hmem
        · exact hrs
        · exact h e hmem
      cases hacc : mapGet p.get_root_signature acc
      · exact ih _ (hins _)
      · exact ih _ (hins _)

theorem buildGroups_entries {m : List (String × SoftwareProject)} :
    ∀ e ∈ buildGroups m [], e.1.length ≠ 0 ∧ e.2 = groupOf m e.1 ∧ e.2 ≠ ∅ := by
  intro e he
  have h1 : e.1.length ≠ 0 := buildGroups_keys m [] (by simp) e he
  have hs : mapSorted (buildGroups m []) :=
    buildGroups_sorted m [] (by simp [mapSorted])
  obtain ⟨k, S⟩ := e
  have hget : mapGet k (buildGroups m []) = some S :=
    mem_mapGet (mapSorted_distinct hs) he
  rw [buildGroups_get m [] k h1] at hget
  simp only [mapGet] at hget
  by_cases hg : groupOf m k = ∅
  · rw [if_pos hg] at hget; cases hget
  · rw [if_neg hg] at hget
    cases hget
    exact ⟨h1, rfl, hg⟩

theorem groupOf_mem_buildGroups {m : List (String × SoftwareProject)}
    {sig : String} (hsig : sig.length ≠ 0) (hne : groupOf m sig ≠ ∅) :
    (sig, groupOf m sig) ∈ buildGroups m [] := by
  have hget : mapGet sig (buildGroups m []) = some (groupOf m sig) := by
    rw [buildGroups_get m [] sig hsig]
    simp only [mapGet]
    rw [if_neg hne]
  exact mapGet_mem hget

/-! ### Sibling detection: write phase (claim C1) -/

/-- The effect of one sibling write on the stored record: the group is
adopted only when the record's `siblings` field is currently unset (this is
what `merge` does to a record merged with itself plus a `siblings` value). -/
def updSib (p : SoftwareProject) (siblings : Finset String) : SoftwareProject :=
  { p with siblings := if p.siblings.isNone then some siblings else p.siblings }

theorem merge_self_siblings (p : SoftwareProject) (S : Finset String) :
    p.merge { p with siblings := some S } = .ok (updSib p S) := by
  simp [SoftwareProject.merge, updSib, siblingsMerge, optOverwrite_self,
    rootHashes_self]

theorem updSib_updSib (p : SoftwareProject) (S : Finset String) :
    updSib (updSib p S) S = updSib p S := by
  cases h : p.siblings <;> simp [updSib, h]

/-- Well-formedness of a loaded store: distinct index keys, each record filed
under its own non-empty id, and a file on disk for every indexed record. -/
def storeWF (s : DbState) : Prop :=
  (s.db.indexed_projects.Pairwise fun a b => a.1 ≠ b.1) ∧
  ∀ kp ∈ s.db.indexed_projects,
    kp.2.id = kp.1 ∧ kp.1.length ≠ 0 ∧ kp.1 ∈ s.projectFiles

/-- Intermediate-state characterization of the write phase of
`detect_siblings`: `D` is the set of member ids written so far. -/
structure PassState (m0 : List (String × SoftwareProject)) (F D : Finset String)
    (s : DbState) : Prop where
  files : s.projectFiles = F
  get_some : ∀ k p0, mapGet k m0 = some p0 →
    mapGet k s.db.indexed_projects =
      some (if k ∈ D then updSib p0 (groupOf m0 p0.get_root_signature) else p0)
  get_none : ∀ k, mapGet k m0 = none → mapGet k s.db.indexed_projects = none

theorem processSibling_step (m0 : List (String × SoftwareProject))
    (F D : Finset String)
    (hd : m0.Pairwise fun a b => a.1 ≠ b.1)
    (hwf : ∀ kp ∈ m0, kp.2.id = kp.1 ∧ kp.1.length ≠ 0 ∧ kp.1 ∈ F)
    (sig : String) (S : Finset String) (hS : S = groupOf m0 sig)
    (k : String) (hk : k ∈ S) (s : DbState) (hs : PassState m0 F D s) :
    ∃ s2, processSibling s S k = .ok s2 ∧ PassState m0 F (insert k D) s2 := by
  obtain ⟨hsF, hsome, hnone⟩ := hs
  obtain ⟨p0, hp0, hp0sig⟩ := (mem_groupOf hd).mp (hS ▸ hk)
  obtain ⟨hid, hlen, hfile⟩ := hwf (k, p0) (mapGet_mem hp0)
  have hgS : groupOf m0 p0.get_root_signature = S := by rw [hp0sig, ← hS]
  have hcur := hsome k p0 hp0
  set cur := if k ∈ D then updSib p0 (groupOf m0 p0.get_root_signature) else p0
    with hcurdef
  have hcurid : cur.id = k := by
    rw [hcurdef]
    by_cases hD : k ∈ D
    · rw [if_pos hD]; exact hid
    · rw [if_neg hD]; exact hid
  have hcurS : updSib cur S = updSib p0 S := by
    rw [hcurdef]
    by_cases hD : k ∈ D
    · rw [if_pos hD, hgS]; exact updSib_updSib p0 S
    · rw [if_neg hD]
  have hfile3 : k ∈ s.projectFiles := by rw [hsF]; exact hfile
  have hlen2 : ¬ (k.length = 0) := hlen
  have hmerge : cur.merge { cur with id := k, siblings := some S }
      = .ok (updSib cur S) := by
    have he : ({ cur with id := k, siblings := some S } : SoftwareProject)
        = { cur with siblings := some S } := by rw [← hcurid]
    rw [he]
    exact merge_self_siblings cur S
  have hup : processSibling s S k = .ok { s with db := { s.db with
      indexed_projects := mapInsert k (updSib p0 S) s.db.indexed_projects } } := by
    simp only [processSibling, Database.get_project, hcur]
    simp [DbState.update_project, hlen2, hcur, hfile3, hcurid, hmerge, hcurS]
  refine ⟨_, hup, hsF, ?_, ?_⟩
  · intro j q0 hq0
    by_cases hj : j = k
    · subst hj
      have hq : q0 = p0 := by
        rw [hq0] at hp0
        exact Option.some.inj hp0
      subst hq
      rw [mapGet_mapInsert_self, if_pos (Finset.mem_insert_self j D), hgS]
    · rw [mapGet_mapInsert_ne _ _ _ _ hj, hsome j q0 hq0]
      simp [Finset.mem_insert, hj]
  · intro j hj
    have hjk : j ≠ k := fun e => by rw [e, hp0] at hj; cases hj
    rw [mapGet_mapInsert_ne _ _ _ _ hjk]
    exact hnone j hj

theorem processGroup_fold (m0 : List (String × SoftwareProject))
    (F : Finset String)
    (hd : m0.Pairwise fun a b => a.1 ≠ b.1)
    (hwf : ∀ kp ∈ m0, kp.2.id = kp.1 ∧ kp.1.length ≠ 0 ∧ kp.1 ∈ F)
    (sig : String) (S : Finset String) (hS : S = groupOf m0 sig) :
    ∀ (ks : List String), (∀ k ∈ ks, k ∈ S) →
      ∀ (D : Finset String) (s : DbState), PassState m0 F D s →
      ∃ s2, ks.foldlM (fun s3 sibling => processSibling s3 S sibling) s = .ok s2 ∧
        PassState m0 F (D ∪ ks.toFinset) s2 := by
  intro ks
  induction ks with
  | nil =>
    intro _ D s hs
    exact ⟨s, rfl, by simpa using hs⟩
  | cons k ks ih =>
    intro hks D s hs
    obtain ⟨s2, hstep, hs2⟩ :=
      processSibling_step m0 F D hd hwf sig S hS k (hks k (by simp)) s hs
    obtain ⟨s3, hfold, hs3⟩ :=
      ih (fun j hj => hks j (by simp [hj])) (insert k D) s2 hs2
    refine ⟨s3, ?_, ?_⟩
    · rw [List.foldlM_cons, hstep]
      exact hfold
    · have hset : insert k D ∪ ks.toFinset = D ∪ (k :: ks).toFinset := by
        ext j
        simp [or_assoc, or_left_comm]
      exact hset ▸ hs3

/-- The member ids of all groups of size at least two. -/
def bigMembers : List (String × Finset String) → Finset String
  | [] => ∅
  | e :: rest => (if e.2.card ≤ 1 then ∅ else e.2) ∪ bigMembers rest

theorem mem_bigMembers {gs : List (String × Finset String)} {k : String} :
    k ∈ bigMembers gs ↔ ∃ e ∈ gs, ¬ e.2.card ≤ 1 ∧ k ∈ e.2 := by
  induction gs with
  | nil => simp [bigMembers]
  | cons e rest ih =>
    by_cases hcard : e.2.card ≤ 1
    · simp only [bigMembers, if_pos hcard, Finset.empty_union, ih]
      constructor
      · rintro ⟨e2, he2, hc2, hk2⟩
        exact ⟨e2, by simp [he2], hc2, hk2⟩
      · rintro ⟨e2, he2, hc2, hk2⟩
        rcases List.mem_cons.mp he2 with rfl | he2
        · exact absurd hcard hc2
        · exact ⟨e2, he2, hc2, hk2⟩
    · simp only [bigMembers, if_neg hcard, Finset.mem_union, ih]
      constructor
      · rintro (hk | ⟨e2, he2, hc2, hk2⟩)
        · exact ⟨e, by simp, hcard, hk⟩
        · exact ⟨e2, by simp [he2], hc2, hk2⟩
      · rintro ⟨e2, he2, hc2, hk2⟩
        rcases List.mem_cons.mp he2 with rfl | he2
        · exact Or.inl hk2
        · exact Or.inr ⟨e2, he2, hc2, hk2⟩

theorem detect_fold (m0 : List (String × SoftwareProject)) (F : Finset String)
    (hd : m0.Pairwise fun a b => a.1 ≠ b.1)
    (hwf : ∀ kp ∈ m0, kp.2.id = kp.1 ∧ kp.1.length ≠ 0 ∧ kp.1 ∈ F) :
    ∀ (gs : List (String × Finset String)),
      (∀ e ∈ gs, e.1.length ≠ 0 ∧ e.2 = groupOf m0 e.1) →
      ∀ (D : Finset String) (s : DbState), PassState m0 F D s →
      ∃ s2, gs.foldlM (fun s3 e =>
          if e.2.card ≤ 1 then .ok s3 else processGroup s3 e.2) s = .ok s2 ∧
        PassState m0 F (D ∪ bigMembers gs) s2 := by
  intro gs
  induction gs with
  | nil =>
    intro _ D s hs
    exact ⟨s, rfl, by simpa [bigMembers] using hs⟩
  | cons e rest ih =>
    intro hgs D s hs
    obtain ⟨he1, he2⟩ := hgs e (by simp)
    by_cases hcard : e.2.card ≤ 1
    · obtain ⟨s2, hfold, hs2⟩ := ih (fun x hx => hgs x (by simp [hx])) D s hs
      refine ⟨s2, ?_, ?_⟩
      · rw [List.foldlM_cons]
        simp only [if_pos hcard]
        exact hfold
      · have hset : D ∪ bigMembers rest = D ∪ bigMembers (e :: rest) := by
          simp [bigMembers, if_pos hcard]
        exact hset ▸ hs2
    · obtain ⟨s2, hgrp, hs2⟩ :=
        processGroup_fold m0 F hd hwf e.1 e.2 he2 (hashSetElems e.2)
          (fun k hk => (mem_hashSetElems e.2 k).mp hk) D s hs
      obtain ⟨s3, hfold, hs3⟩ := ih (fun x hx => hgs x (by simp [hx])) _ s2 hs2
      refine ⟨s3, ?_, ?_⟩
      · rw [List.foldlM_cons]
        simp only [if_neg hcard]
        have hpg : processGroup s e.2 = .ok s2 := hgrp
        rw [hpg]
        exact hfold
      · have htf : (hashSetElems e.2).toFinset = e.2 := by
          ext a
          simp [List.mem_toFinset, mem_hashSetElems]
        have hset : D ∪ (hashSetElems e.2).toFinset ∪ bigMembers rest =
            D ∪ bigMembers (e :: rest) := by
          rw [htf]
          simp [bigMembers, if_neg hcard, Finset.union_assoc]
        exact hset ▸ hs3

/-- C1 (amended): running `detect_siblings` on a well-formed loaded store
succeeds, and for every indexed record: if its root signature is non-empty
and shared by at least two records, its stored value afterwards is the old
record with the full member-id set written into `siblings` — but only when
`siblings` was previously unset, because the write goes through `merge`,
which never replaces an existing `siblings` value; every other record is
unchanged.  Consequently, when every record starts with `siblings` unset,
sibling symmetry holds: any record that ends with `siblings = some S` has its
own id in `S`, and every id in `S` names a record whose `siblings` is the
same set `S`. -/
theorem detect_siblings_spec (s : DbState) (hwf : storeWF s) :
    ∃ s2, s.detect_siblings = .ok s2 ∧
      (∀ k p0, mapGet k s.db.indexed_projects = some p0 →
        mapGet k s2.db.indexed_projects = some (
          if p0.get_root_signature.length ≠ 0 ∧
              2 ≤ (groupOf s.db.indexed_projects p0.get_root_signature).card
          then updSib p0 (groupOf s.db.indexed_projects p0.get_root_signature)
          else p0)) ∧
      ((∀ kp ∈ s.db.indexed_projects, kp.2.siblings = none) →
        ∀ k p, mapGet k s2.db.indexed_projects = some p →
          ∀ S, p.siblings = some S →
            k ∈ S ∧ ∀ j ∈ S, ∃ q, mapGet j s2.db.indexed_projects = some q ∧
              q.siblings = some S) := by
  obtain ⟨hd, hwf2⟩ := hwf
  have hpass0 : PassState s.db.indexed_projects s.projectFiles ∅ s :=
    ⟨rfl, fun k p0 h => by simpa using h, fun k h => h⟩
  have hgs : ∀ e ∈ buildGroups s.db.indexed_projects [],
      e.1.length ≠ 0 ∧ e.2 = groupOf s.db.indexed_projects e.1 :=
    fun e he => ⟨(buildGroups_entries e he).1, (buildGroups_entries e he).2.1⟩
  obtain ⟨s2, hfold, hs2⟩ := detect_fold s.db.indexed_projects s.projectFiles
    hd hwf2 (buildGroups s.db.indexed_projects []) hgs ∅ s hpass0
  have hbm : ∀ k p0, mapGet k s.db.indexed_projects = some p0 →
      (k ∈ bigMembers (buildGroups s.db.indexed_projects []) ↔
        (p0.get_root_signature.length ≠ 0 ∧
          2 ≤ (groupOf s.db.indexed_projects p0.get_root_signature).card)) := by
    intro k p0 hk
    constructor
    · intro hmem
      obtain ⟨e, he, hc, hke⟩ := mem_bigMembers.mp hmem
      obtain ⟨he1, he2⟩ := hgs e he
      rw [he2] at hke hc
      obtain ⟨q, hq, hqsig⟩ := (mem_groupOf hd).mp hke
      have hqp : q = p0 := by rw [hk] at hq; exact (Option.some.inj hq).symm
      subst hqp
      rw [hqsig]
      exact ⟨he1, by omega⟩
    · rintro ⟨hsg, hcard⟩
      have hne : groupOf s.db.indexed_projects p0.get_root_signature ≠ ∅ := by
        intro h
        rw [h] at hcard
        simp at hcard
      refine mem_bigMembers.mpr
        ⟨_, groupOf_mem_buildGroups hsg hne, by simpa using (by omega : ¬ (groupOf s.db.indexed_projects p0.get_root_signature).card ≤ 1), ?_⟩
      exact (mem_groupOf hd).mpr ⟨p0, hk, rfl⟩
  have hmain : ∀ k p0, mapGet k s.db.indexed_projects = some p0 →
      mapGet k s2.db.indexed_projects = some (
        if p0.get_root_signature.length ≠ 0 ∧
            2 ≤ (groupOf s.db.indexed_projects p0.get_root_signature).card
        then updSib p0 (groupOf s.db.indexed_projects p0.get_root_signature)
        else p0) := by
    intro k p0 hk
    rw [hs2.get_some k p0 hk]
    congr 1
    have hiff : (k ∈ (∅ ∪ bigMembers (buildGroups s.db.indexed_projects []) :
        Finset String)) ↔
        (p0.get_root_signature.length ≠ 0 ∧
          2 ≤ (groupOf s.db.indexed_projects p0.get_root_signature).card) := by
      rw [Finset.empty_union]
      exact hbm k p0 hk
    exact if_congr hiff rfl rfl
  refine ⟨s2, hfold, hmain, ?_⟩
  intro hall k p hk2 S hS
  cases h0 : mapGet k s.db.indexed_projects with
  | none =>
    rw [hs2.get_none k h0] at hk2
    cases hk2
  | some p0 =>
    have hv := hmain k p0 h0
    rw [hv] at hk2
    have hp : p = (if p0.get_root_signature.length ≠ 0 ∧
        2 ≤ (groupOf s.db.indexed_projects p0.get_root_signature).card
      then updSib p0 (groupOf s.db.indexed_projects p0.get_root_signature)
      else p0) := (Option.some.inj hk2).symm
    have hsib0 : p0.siblings = none := hall (k, p0) (mapGet_mem h0)
    by_cases hcond : p0.get_root_signature.length ≠ 0 ∧
        2 ≤ (groupOf s.db.indexed_projects p0.get_root_signature).card
    · rw [if_pos hcond] at hp
      have hps : p.siblings
          = some (groupOf s.db.indexed_projects p0.get_root_signature) := by
        rw [hp]
        simp [updSib, hsib0]
      have hGS : groupOf s.db.indexed_projects p0.get_root_signature = S :=
        Option.some.inj (hps.symm.trans hS)
      subst hGS
      constructor
      · exact (mem_groupOf hd).mpr ⟨p0, h0, rfl⟩
      · intro j hj
        obtain ⟨q0, hq0, hq0sig⟩ := (mem_groupOf hd).mp hj
        have hcondj : q0.get_root_signature.length ≠ 0 ∧
            2 ≤ (groupOf s.db.indexed_projects q0.get_root_signature).card := by
          rw [hq0sig]
          exact hcond
        have hvj := hmain j q0 hq0
        rw [if_pos hcondj] at hvj
        refine ⟨updSib q0 (groupOf s.db.indexed_projects q0.get_root_signature),
          hvj, ?_⟩
        have hsq0 : q0.siblings = none := hall (j, q0) (mapGet_mem hq0)
        simp [updSib, hsq0, hq0sig]
    · rw [if_neg hcond] at hp
      rw [hp, hsib0] at hS
      cases hS

def sibWitP1 : SoftwareProject :=
  { SoftwareProject.default with id := "a", root_hashes := ["h"] }

def sibWitP2 : SoftwareProject :=
  { SoftwareProject.default with id := "b", root_hashes := ["h"] }

def sibWitState : DbState :=
  { db := { indexed_projects := [("a", sibWitP1), ("b", sibWitP2)], modules := [] },
    projectFiles := {"a", "b"}, moduleFiles := ∅ }

theorem detect_siblings_spec_witness :
    ∃ s2, sibWitState.detect_siblings = .ok s2 ∧
      (∀ k p0, mapGet k sibWitState.db.indexed_projects = some p0 →
        mapGet k s2.db.indexed_projects = some (
          if p0.get_root_signature.length ≠ 0 ∧
              2 ≤ (groupOf sibWitState.db.indexed_projects
                p0.get_root_signature).card
          then updSib p0 (groupOf sibWitState.db.indexed_projects
            p0.get_root_signature)
          else p0)) ∧
      ((∀ kp ∈ sibWitState.db.indexed_projects, kp.2.siblings = none) →
        ∀ k p, mapGet k s2.db.indexed_projects = some p →
          ∀ S, p.siblings = some S →
            k ∈ S ∧ ∀ j ∈ S, ∃ q, mapGet j s2.db.indexed_projects = some q ∧
              q.siblings = some S) :=
  detect_siblings_spec sibWitState ⟨by decide, by decide⟩

def sibCexA : SoftwareProject :=
  { SoftwareProject.default with
    id := "a", root_hashes := ["h"], siblings := some {"z"} }

def sibCexB : SoftwareProject :=
  { SoftwareProject.default with id := "b", root_hashes := ["h"] }

def sibCexState : DbState :=
  { db := { indexed_projects := [("a", sibCexA), ("b", sibCexB)], modules := [] },
    projectFiles := {"a", "b"}, moduleFiles := ∅ }

/-- C1 counterexample: the two records share the non-empty root signature
"h", yet after the pass the member with a pre-existing `siblings` value keeps
it ({"z"}), so it does not equal the full member set {"a", "b"} that its
sibling received, and symmetry fails ("b" names "a" but "a" does not name
"b" back with the same set). -/
theorem detect_siblings_counterexample :
    sibCexA.get_root_signature = sibCexB.get_root_signature ∧
    sibCexA.get_root_signature.length ≠ 0 ∧
    ((sibCexState.detect_siblings.toOption.bind fun s2 =>
        (mapGet "a" s2.db.indexed_projects).map SoftwareProject.siblings)
      == some (some ({"z"} : Finset String))) = true ∧
    ((sibCexState.detect_siblings.toOption.bind fun s2 =>
        (mapGet "b" s2.db.indexed_projects).map SoftwareProject.siblings)
      == some (some ({"a", "b"} : Finset String))) = true ∧
    (({"z"} : Finset String) == ({"a", "b"} : Finset String)) = false := by
  refine ⟨by decide, by decide, by decide, by decide, by decide⟩

/-! ### Root signatures are not injective (claim C9) -/

def sigCexX : SoftwareProject :=
  { SoftwareProject.default with id := "x", root_hashes := ["ab"] }

def sigCexY : SoftwareProject :=
  { SoftwareProject.default with id := "y", root_hashes := ["a", "b"] }

def sigCexZ : SoftwareProject :=
  { SoftwareProject.default with id := "z", root_hashes := ["", ""] }

def sigCexW : SoftwareProject :=
  { SoftwareProject.default with id := "w", root_hashes := [] }

def sigCexState : DbState :=
  { db :=
      { indexed_projects := [("w", sigCexW), ("x", sigCexX), ("y", sigCexY),
          ("z", sigCexZ)]
        modules := [] }
    projectFiles := {"w", "x", "y", "z"}
    moduleFiles := ∅ }

/-- C9: the root signature is the separator-free concatenation of
`root_hashes` and is not injective — ["ab"] and ["a", "b"] collide, and
`detect_siblings` makes the two projects siblings of each other; a project
whose root hashes are all empty strings gets the empty signature and is
excluded from detection exactly like a project with no root hashes. -/
theorem root_signature_collision :
    sigCexX.get_root_signature = sigCexY.get_root_signature ∧
    sigCexX.root_hashes ≠ sigCexY.root_hashes ∧
    sigCexZ.get_root_signature = "" ∧
    sigCexW.get_root_signature = "" ∧
    ((sigCexState.detect_siblings.toOption.bind fun s2 =>
        (mapGet "x" s2.db.indexed_projects).map SoftwareProject.siblings)
      == some (some ({"x", "y"} : Finset String))) = true ∧
    ((sigCexState.detect_siblings.toOption.bind fun s2 =>
        (mapGet "y" s2.db.indexed_projects).map SoftwareProject.siblings)
      == some (some ({"x", "y"} : Finset String))) = true ∧
    ((sigCexState.detect_siblings.toOption.bind fun s2 =>
        (mapGet "z" s2.db.indexed_projects).map SoftwareProject.siblings)
      == some none) = true ∧
    ((sigCexState.detect_siblings.toOption.bind fun s2 =>
        (mapGet "w" s2.db.indexed_projects).map SoftwareProject.siblings)
      == some none) = true := by
  refine ⟨by decide, by decide, by decide, by decide, by decide, by decide,
    by decide, by decide⟩
